import Mathlib

/-!
Verification of the cdnjs KV tooling (bulk batched KV writes, sorted index
maintenance, and aggregated-metadata merging), shallowly embedded from the
Go sources in `cmd/packages` and `kv/aggregate.go`.

Bytes are modelled as `Nat` (Go `byte` values), byte strings as `List Nat`,
and Go strings as Lean `String` (Go compares strings byte-wise
lexicographically, which agrees with character-wise lexicographic order on
valid UTF-8 text).
-/

set_option maxRecDepth 100000

namespace Cdnjs

/-- The 64-character standard base64 alphabet used by Go's
`base64.StdEncoding` (the encoding invoked by `encodeToBase64`). -/
def base64Alphabet : List Char :=
  "ABCDEFGHIJKLMNOPQRSTUVWXYZabcdefghijklmnopqrstuvwxyz0123456789+/".toList

/-- Character for a 6-bit group. -/
def base64Char (n : Nat) : Char := base64Alphabet.getD n 'A'

/-- Character-level standard base64 encoding (with `'='` padding) of a byte
sequence, processing 3 input bytes into 4 output characters per group. -/
def encodeBase64Chars : List Nat → List Char
  | [] => []
  | b1 :: b2 :: b3 :: rest =>
      base64Char (b1 / 4) :: base64Char ((b1 % 4) * 16 + b2 / 16) ::
      base64Char ((b2 % 16) * 4 + b3 / 64) :: base64Char (b3 % 64) ::
      encodeBase64Chars rest
  | [b1, b2] =>
      [base64Char (b1 / 4), base64Char ((b1 % 4) * 16 + b2 / 16),
       base64Char ((b2 % 16) * 4), '=']
  | [b1] =>
      [base64Char (b1 / 4), base64Char ((b1 % 4) * 16), '=', '=']

/-- `func encodeToBase64(bytes []byte) string` from `cmd/packages`:
standard base64 encoding of the value bytes. -/
def encodeToBase64 (bytes : List Nat) : String := ⟨encodeBase64Chars bytes⟩

/-- `type KV struct { Key string; Value []byte }` from `cmd/packages`. -/
structure KV where
  Key : String
  Value : List Nat
deriving DecidableEq

/-- `cloudflare.WorkersKVPair` as constructed by `encodeAndWriteKVBulk`:
a key, the base64-encoded value, and the `Base64: true` marker. -/
structure WorkersKVPair where
  Key : String
  Value : String
  Base64 : Bool
deriving DecidableEq

/-- `maxBulkPayload int64 = 1e8` from `cmd/packages`. -/
def maxBulkPayload : Nat := 100000000

/-- The pair that `encodeAndWriteKVBulk` appends to the current batch for a
given input item. -/
def toWorkersKVPair (kv : KV) : WorkersKVPair :=
  ⟨kv.Key, encodeToBase64 kv.Value, true⟩

/-- The panic message of the oversized-item check in `encodeAndWriteKVBulk`
(`fmt.Sprintf("oversized file: %s (%d)", kv.Key, size)`). -/
def oversizedMsg (kv : KV) : String :=
  "oversized file: " ++ kv.Key ++ " (" ++ toString kv.Value.length ++ ")"

/-- The loop of `encodeAndWriteKVBulk` from `cmd/packages`, carrying its
three mutable variables (`bulkWrites`, `bulkWrite`, `totalSize`) as explicit
state.  The per-item size check compares the RAW value length against
`util.MaxFileSize` (here the parameter `maxFileSize`); the running batch
total is over base64-ENCODED sizes and is compared against `maxBulkPayload`
(here the parameter `maxBulk`).  A failed size check is the Go `panic`,
modelled as `Except.error`; success returns the final list of batches that
the trailing loop submits, in order, via `api.WriteWorkersKVBulk`. -/
def encodeAndWriteKVBulkLoop (maxFileSize maxBulk : Nat) :
    List KV → List (List WorkersKVPair) → List WorkersKVPair → Nat →
    Except String (List (List WorkersKVPair))
  | [], bulkWrites, bulkWrite, _ => Except.ok (bulkWrites ++ [bulkWrite])
  | kv :: kvs, bulkWrites, bulkWrite, totalSize =>
    if kv.Value.length > maxFileSize then
      Except.error (oversizedMsg kv)
    else
      let encoded := encodeToBase64 kv.Value
      let encodedSize := encoded.length
      if totalSize + encodedSize > maxBulk then
        encodeAndWriteKVBulkLoop maxFileSize maxBulk kvs (bulkWrites ++ [bulkWrite])
          [⟨kv.Key, encoded, true⟩] encodedSize
      else
        encodeAndWriteKVBulkLoop maxFileSize maxBulk kvs bulkWrites
          (bulkWrite ++ [⟨kv.Key, encoded, true⟩]) (totalSize + encodedSize)

/-- `func encodeAndWriteKVBulk(kvs []*KV)` from `cmd/packages`, parametrised
over the two configured ceilings (`util.MaxFileSize` and `maxBulkPayload` in
the source). -/
def encodeAndWriteKVBulk (maxFileSize maxBulk : Nat) (kvs : List KV) :
    Except String (List (List WorkersKVPair)) :=
  encodeAndWriteKVBulkLoop maxFileSize maxBulk kvs [] [] 0

/-- Aggregate encoded payload size of one bulk batch. -/
def batchPayloadSize (b : List WorkersKVPair) : Nat :=
  (b.map fun p => p.Value.length).sum

theorem encodeBase64Chars_length : ∀ bytes : List Nat,
    (encodeBase64Chars bytes).length = 4 * ((bytes.length + 2) / 3)
  | [] => rfl
  | [b1] => by simp [encodeBase64Chars]
  | [b1, b2] => by simp [encodeBase64Chars]
  | _ :: _ :: _ :: rest => by
      simp only [encodeBase64Chars, List.length_cons,
        encodeBase64Chars_length rest]
      omega

theorem encodeToBase64_length (bytes : List Nat) :
    (encodeToBase64 bytes).length = 4 * ((bytes.length + 2) / 3) := by
  show (encodeBase64Chars bytes).length = _
  exact encodeBase64Chars_length bytes

theorem rawLength_le_encodedLength (bytes : List Nat) :
    bytes.length ≤ (encodeToBase64 bytes).length := by
  rw [encodeToBase64_length]
  omega

theorem batchPayloadSize_append (a b : List WorkersKVPair) :
    batchPayloadSize (a ++ b) = batchPayloadSize a + batchPayloadSize b := by
  simp [batchPayloadSize]

theorem batchPayloadSize_singleton (p : WorkersKVPair) :
    batchPayloadSize [p] = p.Value.length := by
  simp [batchPayloadSize]

/-- Main invariant of the `encodeAndWriteKVBulk` packing loop: if every
remaining item's encoded size fits the per-item ceiling, and the ceiling is
at most the bulk budget, the loop succeeds; the joined batches extend the
state by the remaining items in order; every produced batch is within the
budget; and, unless the state and input are both empty, no batch is empty. -/
theorem encodeAndWriteKVBulkLoop_spec (maxFileSize maxBulk : Nat)
    (hceil : maxFileSize ≤ maxBulk) :
    ∀ (kvs : List KV) (bulkWrites : List (List WorkersKVPair))
      (bulkWrite : List WorkersKVPair) (totalSize : Nat),
      (∀ kv ∈ kvs, (encodeToBase64 kv.Value).length ≤ maxFileSize) →
      totalSize = batchPayloadSize bulkWrite →
      totalSize ≤ maxBulk →
      (∀ b ∈ bulkWrites, batchPayloadSize b ≤ maxBulk ∧ b ≠ []) →
      ∃ batches,
        encodeAndWriteKVBulkLoop maxFileSize maxBulk kvs bulkWrites bulkWrite totalSize
          = Except.ok batches ∧
        batches.flatten = bulkWrites.flatten ++ bulkWrite ++ kvs.map toWorkersKVPair ∧
        (∀ b ∈ batches, batchPayloadSize b ≤ maxBulk) ∧
        ((bulkWrite ≠ [] ∨ kvs ≠ []) → ∀ b ∈ batches, b ≠ []) := by
  intro kvs
  induction kvs with
  | nil =>
    intro bulkWrites bulkWrite totalSize _ hts hbound hprev
    refine ⟨bulkWrites ++ [bulkWrite], rfl, ?_, ?_, ?_⟩
    · simp
    · intro b hb
      rcases List.mem_append.mp hb with h | h
      · exact (hprev b h).1
      · simp only [List.mem_singleton] at h
        subst h; omega
    · rintro (hne | hne) b hb
      · rcases List.mem_append.mp hb with h | h
        · exact (hprev b h).2
        · simp only [List.mem_singleton] at h; subst h; exact hne
      · exact absurd rfl hne
  | cons kv kvs ih =>
    intro bulkWrites bulkWrite totalSize hitems hts hbound hprev
    have hkv : (encodeToBase64 kv.Value).length ≤ maxFileSize :=
      hitems kv (List.mem_cons_self kv kvs)
    have hraw : ¬ kv.Value.length > maxFileSize := by
      have := rawLength_le_encodedLength kv.Value
      omega
    have hrest : ∀ x ∈ kvs, (encodeToBase64 x.Value).length ≤ maxFileSize :=
      fun x hx => hitems x (List.mem_cons_of_mem kv hx)
    rw [encodeAndWriteKVBulkLoop, if_neg hraw]
    simp only []
    by_cases hsplit : totalSize + (encodeToBase64 kv.Value).length > maxBulk
    · rw [if_pos hsplit]
      have hbwne : bulkWrite ≠ [] := by
        intro h
        subst h
        simp [batchPayloadSize] at hts
        omega
      obtain ⟨batches, heq, hjoin, hbnd, hne⟩ :=
        ih (bulkWrites ++ [bulkWrite])
          [⟨kv.Key, encodeToBase64 kv.Value, true⟩]
          (encodeToBase64 kv.Value).length hrest
          (by simp [batchPayloadSize])
          (le_trans hkv hceil)
          (by
            intro b hb
            rcases List.mem_append.mp hb with h | h
            · exact hprev b h
            · simp only [List.mem_singleton] at h
              subst h
              exact ⟨by omega, hbwne⟩)
      refine ⟨batches, heq, ?_, hbnd, fun _ => hne (Or.inl (by simp)) ⟩
      rw [hjoin]
      simp [toWorkersKVPair]
    · rw [if_neg hsplit]
      obtain ⟨batches, heq, hjoin, hbnd, hne⟩ :=
        ih bulkWrites (bulkWrite ++ [⟨kv.Key, encodeToBase64 kv.Value, true⟩])
          (totalSize + (encodeToBase64 kv.Value).length) hrest
          (by rw [batchPayloadSize_append, batchPayloadSize_singleton, hts])
          (by omega) hprev
      refine ⟨batches, heq, ?_, hbnd, fun _ => hne (Or.inl (by simp)) ⟩
      rw [hjoin]
      simp [toWorkersKVPair]

/-- C1: for every input sequence of write items each of whose encoded sizes
is at most the per-item ceiling (itself at most the aggregate ceiling, as in
the source where `util.MaxFileSize` is below `maxBulkPayload`), the bulk
batcher succeeds, no produced batch's aggregate encoded size exceeds the
aggregate ceiling, and the concatenation of all batches' items, in batch
order, is exactly the input sequence (as encoded write pairs) in its
original order. -/
theorem C1_bulk_batcher_partition (maxFileSize maxBulk : Nat) (kvs : List KV)
    (hceil : maxFileSize ≤ maxBulk)
    (hitems : ∀ kv ∈ kvs, (encodeToBase64 kv.Value).length ≤ maxFileSize) :
    ∃ batches,
      encodeAndWriteKVBulk maxFileSize maxBulk kvs = Except.ok batches ∧
      (∀ b ∈ batches, batchPayloadSize b ≤ maxBulk) ∧
      batches.flatten = kvs.map toWorkersKVPair := by
  obtain ⟨batches, heq, hjoin, hbnd, _⟩ :=
    encodeAndWriteKVBulkLoop_spec maxFileSize maxBulk hceil kvs [] [] 0
      hitems (by simp [batchPayloadSize]) (Nat.zero_le _) (by simp)
  exact ⟨batches, heq, hbnd, by simpa using hjoin⟩

/-- Witness for C1 at a concrete input. -/
theorem C1_bulk_batcher_partition_witness :
    ∃ batches,
      encodeAndWriteKVBulk 1000 2500 [⟨"a", [1, 2, 3]⟩] = Except.ok batches ∧
      (∀ b ∈ batches, batchPayloadSize b ≤ 2500) ∧
      batches.flatten = [(⟨"a", [1, 2, 3]⟩ : KV)].map toWorkersKVPair :=
  C1_bulk_batcher_partition 1000 2500 [⟨"a", [1, 2, 3]⟩] (by decide) (by decide)

/-- C3 counterexample: an item whose base64-ENCODED size (1100) exceeds the
per-item ceiling (1000) while its raw size (825) does not is NOT rejected:
the batcher succeeds and submits a batch containing that item, refuting the
claim that any item of encoded size over the ceiling fails before a write. -/
theorem C3_oversized_encoded_item_not_rejected :
    (encodeToBase64 (List.replicate 825 0)).length = 1100 ∧
    encodeAndWriteKVBulk 1000 100000000 [⟨"big", List.replicate 825 0⟩] =
      Except.ok [[toWorkersKVPair ⟨"big", List.replicate 825 0⟩]] := by
  constructor
  · rw [encodeToBase64_length]
    rfl
  · rfl

/-- C3 amended: the per-item ceiling is enforced on the RAW (pre-encoding)
value size: any input sequence containing an item whose raw size exceeds
the ceiling makes the bulk batcher fail with the oversized-item panic
before any batch is submitted (no batch list is ever produced). -/
theorem C3_oversized_raw_item_rejected (maxFileSize maxBulk : Nat)
    (kvs : List KV) (h : ∃ kv ∈ kvs, kv.Value.length > maxFileSize) :
    ∃ msg, encodeAndWriteKVBulk maxFileSize maxBulk kvs = Except.error msg := by
  suffices hloop : ∀ (rest : List KV) (bws : List (List WorkersKVPair))
      (bw : List WorkersKVPair) (ts : Nat),
      (∃ kv ∈ rest, kv.Value.length > maxFileSize) →
      ∃ msg, encodeAndWriteKVBulkLoop maxFileSize maxBulk rest bws bw ts
               = Except.error msg by
    exact hloop kvs [] [] 0 h
  intro rest
  induction rest with
  | nil =>
    intro _ _ _ h
    simp at h
  | cons kv kvs ih =>
    intro bws bw ts h
    by_cases hkv : kv.Value.length > maxFileSize
    · exact ⟨oversizedMsg kv, by rw [encodeAndWriteKVBulkLoop, if_pos hkv]⟩
    · obtain ⟨x, hx, hxsize⟩ := h
      rcases List.mem_cons.mp hx with rfl | hx
      · exact absurd hxsize hkv
      · rw [encodeAndWriteKVBulkLoop, if_neg hkv]
        simp only []
        by_cases hsplit :
            ts + (encodeToBase64 kv.Value).length > maxBulk
        · rw [if_pos hsplit]
          exact ih _ _ _ ⟨x, hx, hxsize⟩
        · rw [if_neg hsplit]
          exact ih _ _ _ ⟨x, hx, hxsize⟩

/-- Witness for the amended C3: an item of raw size 1100 against a per-item
ceiling of 1000 is rejected before any write. -/
theorem C3_oversized_raw_item_rejected_witness :
    ∃ msg, encodeAndWriteKVBulk 1000 100000000
      [⟨"big", List.replicate 1100 0⟩] = Except.error msg :=
  C3_oversized_raw_item_rejected 1000 100000000
    [⟨"big", List.replicate 1100 0⟩] (by decide)

/-- C8: with a per-item ceiling of 1000 and an aggregate ceiling of 2500,
four items of encoded size 900 each (raw size 675) are packed into exactly
two batches of two items each, not one batch and not four. -/
theorem C8_four_items_two_batches :
    (encodeToBase64 (List.replicate 675 0)).length = 900 ∧
    encodeAndWriteKVBulk 1000 2500
        [⟨"a", List.replicate 675 0⟩, ⟨"b", List.replicate 675 0⟩,
         ⟨"c", List.replicate 675 0⟩, ⟨"d", List.replicate 675 0⟩] =
      Except.ok
        [[toWorkersKVPair ⟨"a", List.replicate 675 0⟩,
          toWorkersKVPair ⟨"b", List.replicate 675 0⟩],
         [toWorkersKVPair ⟨"c", List.replicate 675 0⟩,
          toWorkersKVPair ⟨"d", List.replicate 675 0⟩]] := by
  constructor
  · rw [encodeToBase64_length]
    rfl
  · rfl

/-- C10: on a non-empty input of items within the ceilings every submitted
batch is non-empty, while on an empty input the batcher still submits
exactly one bulk write request carrying zero key/value pairs. -/
theorem C10_batch_emptiness (maxFileSize maxBulk : Nat) (kvs : List KV)
    (hceil : maxFileSize ≤ maxBulk)
    (hitems : ∀ kv ∈ kvs, (encodeToBase64 kv.Value).length ≤ maxFileSize)
    (hne : kvs ≠ []) :
    (∃ batches,
      encodeAndWriteKVBulk maxFileSize maxBulk kvs = Except.ok batches ∧
      ∀ b ∈ batches, b ≠ []) ∧
    encodeAndWriteKVBulk maxFileSize maxBulk [] = Except.ok [[]] := by
  obtain ⟨batches, heq, _, _, hne'⟩ :=
    encodeAndWriteKVBulkLoop_spec maxFileSize maxBulk hceil kvs [] [] 0
      hitems (by simp [batchPayloadSize]) (Nat.zero_le _) (by simp)
  exact ⟨⟨batches, heq, hne' (Or.inr hne)⟩, rfl⟩

/-- Witness for C10 at a concrete input. -/
theorem C10_batch_emptiness_witness :
    (∃ batches,
      encodeAndWriteKVBulk 1000 2500 [⟨"a", [1, 2, 3]⟩] = Except.ok batches ∧
      ∀ b ∈ batches, b ≠ []) ∧
    encodeAndWriteKVBulk 1000 2500 [] = Except.ok [[]] :=
  C10_batch_emptiness 1000 2500 [⟨"a", [1, 2, 3]⟩] (by decide) (by decide)
    (by decide)

/-- Go string comparison `x <= y`.  Go compares strings byte-wise
lexicographically; on valid UTF-8 this agrees with character-wise
lexicographic order, which is Lean's `String` order, used here through the
character list so that it is kernel-computable. -/
def strLeB (x y : String) : Bool := decide (x.toList ≤ y.toList)

theorem strLeB_eq_true_iff (x y : String) : strLeB x y = true ↔ x ≤ y := by
  rw [strLeB, decide_eq_true_iff]
  exact String.le_iff_toList_le.symm

/-- The loop of Go's `sort.Search(n, f)` (from the standard library `sort`
package, as invoked by `sort.SearchStrings` in `cmd/packages`):
`i, j := 0, n; for i < j { h := (i+j)/2; if !f(h) { i = h+1 } else { j = h } }`. -/
def searchLoop (f : Nat → Bool) (i j : Nat) : Nat :=
  if h : i < j then
    let m := (i + j) / 2
    if f m then searchLoop f i m else searchLoop f (m + 1) j
  else i
termination_by j - i
decreasing_by
  · omega
  · omega

theorem searchLoop_step_true {f : Nat → Bool} {i j : Nat} (hij : i < j)
    (hm : f ((i + j) / 2) = true) :
    searchLoop f i j = searchLoop f i ((i + j) / 2) := by
  rw [searchLoop]
  simp [hij, hm]

theorem searchLoop_step_false {f : Nat → Bool} {i j : Nat} (hij : i < j)
    (hm : f ((i + j) / 2) = false) :
    searchLoop f i j = searchLoop f ((i + j) / 2 + 1) j := by
  rw [searchLoop]
  simp [hij, hm]

theorem searchLoop_base {f : Nat → Bool} {i j : Nat} (hij : ¬ i < j) :
    searchLoop f i j = i := by
  rw [searchLoop]
  simp [hij]

/-- Correctness of the `sort.Search` loop for a monotone predicate: the
result is the boundary between the `false` and the `true` region. -/
theorem searchLoop_spec (f : Nat → Bool) (n : Nat)
    (hmono : ∀ k l, k ≤ l → l < n → f k = true → f l = true) :
    ∀ i j, j ≤ n → i ≤ j →
      (∀ k, k < i → f k = false) →
      (∀ k, j ≤ k → k < n → f k = true) →
      i ≤ searchLoop f i j ∧ searchLoop f i j ≤ j ∧
      (∀ k, k < searchLoop f i j → f k = false) ∧
      (∀ k, searchLoop f i j ≤ k → k < n → f k = true) := by
  refine searchLoop.induct f (fun i j =>
      j ≤ n → i ≤ j →
      (∀ k, k < i → f k = false) →
      (∀ k, j ≤ k → k < n → f k = true) →
      i ≤ searchLoop f i j ∧ searchLoop f i j ≤ j ∧
      (∀ k, k < searchLoop f i j → f k = false) ∧
      (∀ k, searchLoop f i j ≤ k → k < n → f k = true)) ?_ ?_ ?_
  · intro i j hij m hm ih hjn _ hlow hhigh
    have hmdef : m = (i + j) / 2 := rfl
    rw [searchLoop_step_true hij (hmdef ▸ hm), ← hmdef]
    have hmn : m ≤ n := by omega
    have him : i ≤ m := by omega
    have hhigh' : ∀ k, m ≤ k → k < n → f k = true := fun k hmk hkn =>
      hmono m k hmk hkn hm
    obtain ⟨h1, h2, h3, h4⟩ := ih hmn him hlow hhigh'
    exact ⟨h1, by omega, h3, h4⟩
  · intro i j hij m hm ih hjn hle hlow hhigh
    have hmdef : m = (i + j) / 2 := rfl
    replace hm : f m = false := by
      cases h : f m
      · rfl
      · exact absurd h hm
    rw [searchLoop_step_false hij (hmdef ▸ hm), ← hmdef]
    have hmj : m + 1 ≤ j := by omega
    have hlow' : ∀ k, k < m + 1 → f k = false := by
      intro k hk
      by_cases hki : k < i
      · exact hlow k hki
      · cases h : f k
        · rfl
        · have hmn : m < n := by omega
          have := hmono k m (by omega) hmn h
          rw [this] at hm
          exact absurd hm (by simp)
    obtain ⟨h1, h2, h3, h4⟩ := ih hjn hmj hlow' hhigh
    exact ⟨by omega, h2, h3, h4⟩
  · intro i j hij hjn hle hlow hhigh
    rw [searchLoop_base hij]
    have : i = j := by omega
    subst this
    exact ⟨le_refl _, le_refl _, hlow, hhigh⟩

/-- Go's `sort.SearchStrings(a, x)`: the smallest index `i` such that
`a[i] >= x`, or `len(a)` if there is none (for sorted `a`). -/
def searchStrings (a : List String) (x : String) : Nat :=
  searchLoop (fun h => strLeB x (a.getD h "")) 0 a.length

theorem sorted_getElem_le {l : List String} (hs : l.Sorted (· < ·))
    {k m : Nat} (hkm : k ≤ m) (hm : m < l.length) :
    l.getD k "" ≤ l.getD m "" := by
  rcases Nat.eq_or_lt_of_le hkm with rfl | hlt
  · exact le_refl _
  · have hk : k < l.length := lt_trans hlt hm
    rw [List.getD_eq_getElem l _ hk, List.getD_eq_getElem l _ hm]
    exact le_of_lt (List.pairwise_iff_getElem.mp hs k m hk hm hlt)

/-- For a sorted input, `sort.SearchStrings` returns the insertion point:
everything strictly before it is `< x`, everything from it on is `≥ x`. -/
theorem searchStrings_spec (l : List String) (x : String)
    (hs : l.Sorted (· < ·)) :
    searchStrings l x ≤ l.length ∧
    (∀ k, k < searchStrings l x → l.getD k "" < x) ∧
    (∀ k, searchStrings l x ≤ k → k < l.length → x ≤ l.getD k "") := by
  have hmono : ∀ k m, k ≤ m → m < l.length →
      strLeB x (l.getD k "") = true → strLeB x (l.getD m "") = true := by
    intro k m hkm hm h
    rw [strLeB_eq_true_iff] at h ⊢
    exact le_trans h (sorted_getElem_le hs hkm hm)
  obtain ⟨_, h2, h3, h4⟩ := searchLoop_spec _ l.length hmono 0 l.length
    (le_refl _) (Nat.zero_le _) (fun k hk => absurd hk (Nat.not_lt_zero k))
    (fun k hk hk2 => absurd hk2 (by omega))
  refine ⟨h2, ?_, ?_⟩
  · intro k hk
    have hfalse := h3 k hk
    have hxle : ¬ x ≤ l.getD k "" := by
      intro hcontra
      rw [← strLeB_eq_true_iff] at hcontra
      rw [hfalse] at hcontra
      exact absurd hcontra (by simp)
    exact not_le.mp hxle
  · intro k hk hk2
    exact (strLeB_eq_true_iff _ _).mp (h4 k hk hk2)

/-- `func insertToSortedListIfNotPresent(sorted []string, s string) []string`
from `cmd/packages`: binary search for the insertion point; append at the
back if the point is past the end, return unchanged if the value is already
there, otherwise splice it in at the point (the value of the Go
`append(sorted[:i], append([]string{s}, sorted[i:]...)...)` splice is
`take i ++ s :: drop i`). -/
def insertToSortedListIfNotPresent (sorted : List String) (s : String) :
    List String :=
  let i := searchStrings sorted s
  if i = sorted.length then
    sorted ++ [s]
  else if sorted.getD i "" = s then
    sorted
  else
    sorted.take i ++ s :: sorted.drop i

theorem insertToSortedListIfNotPresent_of_mem {l : List String} {x : String}
    (hs : l.Sorted (· < ·)) (hx : x ∈ l) :
    insertToSortedListIfNotPresent l x = l := by
  obtain ⟨p, hp, hpx⟩ := List.mem_iff_getElem.mp hx
  obtain ⟨hle, hlt, hge⟩ := searchStrings_spec l x hs
  have hrlt : searchStrings l x < l.length := by
    rcases Nat.lt_or_ge (searchStrings l x) l.length with h | h
    · exact h
    · have hpr : p < searchStrings l x := by omega
      have := hlt p hpr
      rw [List.getD_eq_getElem l _ hp, hpx] at this
      exact absurd this (lt_irrefl x)
  have hrx : l.getD (searchStrings l x) "" = x := by
    have h1 : x ≤ l.getD (searchStrings l x) "" := hge _ (le_refl _) hrlt
    have h2 : searchStrings l x ≤ p := by
      rcases Nat.lt_or_ge p (searchStrings l x) with h | h
      · have := hlt p h
        rw [List.getD_eq_getElem l _ hp, hpx] at this
        exact absurd this (lt_irrefl x)
      · exact h
    have h3 : l.getD (searchStrings l x) "" ≤ l.getD p "" :=
      sorted_getElem_le hs h2 hp
    rw [List.getD_eq_getElem l _ hp, hpx] at h3
    exact le_antisymm h3 h1
  simp only [insertToSortedListIfNotPresent]
  rw [if_neg (by omega), if_pos hrx]

theorem insertToSortedListIfNotPresent_sorted {l : List String} {x : String}
    (hs : l.Sorted (· < ·)) :
    (insertToSortedListIfNotPresent l x).Sorted (· < ·) := by
  obtain ⟨hle, hlt, hge⟩ := searchStrings_spec l x hs
  simp only [insertToSortedListIfNotPresent]
  by_cases h1 : searchStrings l x = l.length
  · rw [if_pos h1]
    rw [List.Sorted, List.pairwise_append]
    refine ⟨hs, List.pairwise_singleton _ _, ?_⟩
    intro a ha b hb
    simp only [List.mem_singleton] at hb
    subst hb
    obtain ⟨k, hk, hka⟩ := List.mem_iff_getElem.mp ha
    rw [← hka, ← List.getD_eq_getElem l "" hk]
    exact hlt k (by omega)
  · rw [if_neg h1]
    by_cases h2 : l.getD (searchStrings l x) "" = x
    · rw [if_pos h2]
      exact hs
    · rw [if_neg h2]
      have hrlt : searchStrings l x < l.length := by omega
      have hxlt : x < l.getD (searchStrings l x) "" :=
        lt_of_le_of_ne (hge _ (le_refl _) hrlt) (Ne.symm h2)
      have hxdrop : ∀ y ∈ l.drop (searchStrings l x), x < y := by
        intro y hy
        obtain ⟨k, hk, hky⟩ := List.mem_iff_getElem.mp hy
        rw [List.getElem_drop] at hky
        have hk2 : searchStrings l x + k < l.length := by
          rw [List.length_drop] at hk
          omega
        calc x < l.getD (searchStrings l x) "" := hxlt
          _ ≤ l.getD (searchStrings l x + k) "" :=
            sorted_getElem_le hs (by omega) hk2
          _ = y := by rw [List.getD_eq_getElem l _ hk2]; exact hky
      rw [List.Sorted, List.pairwise_append]
      refine ⟨List.Pairwise.sublist (List.take_sublist _ _) hs, ?_, ?_⟩
      · rw [List.pairwise_cons]
        exact ⟨hxdrop, List.Pairwise.sublist (List.drop_sublist _ _) hs⟩
      · intro a ha b hb
        obtain ⟨k, hk, hka⟩ := List.mem_iff_getElem.mp ha
        have hkr : k < searchStrings l x := by
          rw [List.length_take] at hk
          omega
        have hk2 : k < l.length := by omega
        have hax : a < x := by
          have hgetl : l[k] = a := by
            rw [List.getElem_take' l hk2 hkr]
            exact hka
          rw [← hgetl, ← List.getD_eq_getElem l "" hk2]
          exact hlt k hkr
        rcases List.mem_cons.mp hb with rfl | hb
        · exact hax
        · exact lt_trans hax (hxdrop b hb)

theorem mem_insertToSortedListIfNotPresent {l : List String} {x : String}
    (hs : l.Sorted (· < ·)) :
    x ∈ insertToSortedListIfNotPresent l x := by
  obtain ⟨hle, hlt, hge⟩ := searchStrings_spec l x hs
  simp only [insertToSortedListIfNotPresent]
  by_cases h1 : searchStrings l x = l.length
  · rw [if_pos h1]
    simp
  · rw [if_neg h1]
    by_cases h2 : l.getD (searchStrings l x) "" = x
    · rw [if_pos h2]
      have hrlt : searchStrings l x < l.length := by omega
      rw [← h2, List.getD_eq_getElem l "" hrlt]
      exact List.mem_iff_getElem.mpr ⟨searchStrings l x, hrlt, rfl⟩
    · rw [if_neg h2]
      simp

/-- C5: on an already-sorted duplicate-free list,
`insertToSortedListIfNotPresent` is idempotent, its result is sorted
ascending and duplicate-free, a value already present leaves the list
unchanged, and the concrete scenario holds: inserting `"foo"` into the
empty list gives `["foo"]`, then `"bar"` gives `["bar", "foo"]`, and
re-inserting `"foo"` leaves that unchanged. -/
theorem C5_insertToSortedListIfNotPresent_props (l : List String) (x : String)
    (hs : l.Sorted (· < ·)) :
    insertToSortedListIfNotPresent (insertToSortedListIfNotPresent l x) x
        = insertToSortedListIfNotPresent l x ∧
    (insertToSortedListIfNotPresent l x).Sorted (· < ·) ∧
    (insertToSortedListIfNotPresent l x).Nodup ∧
    (x ∈ l → insertToSortedListIfNotPresent l x = l) ∧
    insertToSortedListIfNotPresent [] "foo" = ["foo"] ∧
    insertToSortedListIfNotPresent ["foo"] "bar" = ["bar", "foo"] ∧
    insertToSortedListIfNotPresent ["bar", "foo"] "foo" = ["bar", "foo"] := by
  refine ⟨?_, insertToSortedListIfNotPresent_sorted hs, ?_, ?_, ?_, ?_, ?_⟩
  · exact insertToSortedListIfNotPresent_of_mem
      (insertToSortedListIfNotPresent_sorted hs)
      (mem_insertToSortedListIfNotPresent hs)
  · exact (insertToSortedListIfNotPresent_sorted hs).imp fun h => ne_of_lt h
  · exact fun hx => insertToSortedListIfNotPresent_of_mem hs hx
  · simp [insertToSortedListIfNotPresent, searchStrings, searchLoop, strLeB]
  · simp [insertToSortedListIfNotPresent, searchStrings, searchLoop, strLeB]
    decide
  · simp [insertToSortedListIfNotPresent, searchStrings, searchLoop, strLeB]
    decide

/-- Witness for C5 at a concrete input. -/
theorem C5_insertToSortedListIfNotPresent_props_witness :
    insertToSortedListIfNotPresent (insertToSortedListIfNotPresent [] "baz") "baz"
        = insertToSortedListIfNotPresent [] "baz" ∧
    (insertToSortedListIfNotPresent [] "baz").Sorted (· < ·) ∧
    (insertToSortedListIfNotPresent [] "baz").Nodup ∧
    ("baz" ∈ ([] : List String) → insertToSortedListIfNotPresent [] "baz" = []) ∧
    insertToSortedListIfNotPresent [] "foo" = ["foo"] ∧
    insertToSortedListIfNotPresent ["foo"] "bar" = ["bar", "foo"] ∧
    insertToSortedListIfNotPresent ["bar", "foo"] "foo" = ["bar", "foo"] :=
  C5_insertToSortedListIfNotPresent_props [] "baz" List.sorted_nil

/-- The read error kinds a KV read can report.  `KeyNotFoundError` is the
distinguished kind from `kv/aggregate.go`; auth or other network failures
are anything else. -/
inductive KVError where
  | KeyNotFoundError
  | authError
  | otherError (msg : String)
deriving DecidableEq

/-- `type Root struct { Packages []string }` from `cmd/packages`. -/
structure Root where
  Packages : List String
deriving DecidableEq

/-- `type Package struct { Versions []string }` from `cmd/packages`. -/
structure Package where
  Versions : List String
deriving DecidableEq

/-- `rootKey = "/"` from `cmd/packages`. -/
def rootKey : String := "/"

/-- `func updateRoot(pkg string) *KV` from `cmd/packages`.  The external
`readKV` call plus `json.Unmarshal` is abstracted as the already-decoded
read outcome `readResult`; the produced KV record is represented as its key
together with the `Root` document marshalled into its value.  Note the
source treats EVERY read error like a missing key (`// assume key is not
found (could also be auth error)`) and starts a fresh single-package
document. -/
def updateRoot (readResult : Except KVError Root) (pkg : String) :
    String × Root :=
  match readResult with
  | Except.error _ => (rootKey, ⟨[pkg]⟩)
  | Except.ok r => (rootKey, ⟨insertToSortedListIfNotPresent r.Packages pkg⟩)

/-- `func updatePackage(pkg, version string) *KV` from `cmd/packages`,
abstracted exactly like `updateRoot`. -/
def updatePackage (readResult : Except KVError Package) (pkg version : String) :
    String × Package :=
  match readResult with
  | Except.error _ => (pkg, ⟨[version]⟩)
  | Except.ok p => (pkg, ⟨insertToSortedListIfNotPresent p.Versions version⟩)

/-- C2 counterexample: a read failure that is NOT key-not-found (an auth
error) is handled exactly like key-not-found by both `updateRoot` and
`updatePackage`: instead of aborting before any write, each produces a
fresh single-element document for writing, silently discarding whatever
the store really holds. -/
theorem C2_read_error_not_fatal :
    updateRoot (Except.error KVError.authError) "foo"
        = updateRoot (Except.error KVError.KeyNotFoundError) "foo" ∧
    updateRoot (Except.error KVError.authError) "foo" = (rootKey, ⟨["foo"]⟩) ∧
    updatePackage (Except.error KVError.authError) "foo" "1.0.0"
        = updatePackage (Except.error KVError.KeyNotFoundError) "foo" "1.0.0" ∧
    updatePackage (Except.error KVError.authError) "foo" "1.0.0"
        = ("foo", ⟨["1.0.0"]⟩) :=
  ⟨rfl, rfl, rfl, rfl⟩

/-- C2 amended: every read failure of the Root or Package document,
key-not-found or not, is treated as an absent document: the update does not
abort, and a fresh single-element document is produced for writing. -/
theorem C2_read_error_treated_as_absent (e : KVError) (pkg version : String) :
    updateRoot (Except.error e) pkg = (rootKey, ⟨[pkg]⟩) ∧
    updatePackage (Except.error e) pkg version = (pkg, ⟨[version]⟩) :=
  ⟨rfl, rfl⟩

namespace Packages

/-- Modelled from the spec: `packages.Asset` (the `packages` module is not
among the sources here) — one version's asset record in the aggregated
metadata document: the version string together with its file list. -/
structure Asset where
  Version : String
  Files : List String
deriving DecidableEq

/-- Modelled from the spec: `packages.Package` (the `packages` module is
not among the sources here) — the aggregated metadata document: the
package's base descriptor (its name), the most-recently-processed
top-level `version`, and the per-version `assets` list.  Descriptor fields
that take no part in the merge logic are omitted. -/
structure Package where
  Name : String
  Version : Option String
  Assets : List Asset
deriving DecidableEq

/-- Modelled from the spec: `(*packages.Package).HasVersion` — whether the
assets list already contains an entry for the given version. -/
def Package.HasVersion (p : Package) (version : String) : Bool :=
  p.Assets.any fun a => a.Version == version

/-- Modelled from the spec: `(*packages.Package).UpdateVersion` —
update-in-place replaces the assets entry for an existing version rather
than duplicating it. -/
def Package.UpdateVersion (p : Package) (version : String) (assets : Asset) :
    Package :=
  { p with Assets := p.Assets.map fun a => if a.Version == version then assets else a }

end Packages

/-- `UpdateAggregatedMetadata` from `kv/aggregate.go`.  The external KV
read via `getAggregatedMetadata` is abstracted as its already-decoded
outcome `readResult` (`Except.error e` models `aggPkg = nil` with `err =
e`, in which case the source falls back to the base descriptor `pkg`).
The result is the document handed to `writeAggregatedMetadata` together
with the `found` flag, or the propagated read error. -/
def UpdateAggregatedMetadata (pkg : Packages.Package)
    (readResult : Except KVError Packages.Package) (newVersion : String)
    (newAssets : Packages.Asset) :
    Except KVError (Packages.Package × Bool) :=
  match readResult with
  | Except.error KVError.KeyNotFoundError =>
      Except.ok ({ pkg with Assets := [newAssets], Version := some newVersion },
        false)
  | Except.error e => Except.error e
  | Except.ok aggPkg =>
      let agg2 :=
        if !aggPkg.HasVersion newVersion then
          { aggPkg with Assets := aggPkg.Assets ++ [newAssets] }
        else
          aggPkg.UpdateVersion newVersion newAssets
      Except.ok ({ agg2 with Version := some newVersion }, true)

/-- C6: on a key-not-found read, `UpdateAggregatedMetadata` reports
`found = false` and the written document is the package's base descriptor
with exactly one asset entry, the supplied new record (and the top-level
version set to the new version). -/
theorem C6_aggregator_key_not_found (pkg : Packages.Package)
    (newVersion : String) (newAssets : Packages.Asset) :
    UpdateAggregatedMetadata pkg (Except.error KVError.KeyNotFoundError)
        newVersion newAssets
      = Except.ok
          ({ pkg with Assets := [newAssets], Version := some newVersion },
            false) := rfl

/-- C7: any read error other than key-not-found is propagated unchanged by
`UpdateAggregatedMetadata` and the update aborts with no document produced
for writing. -/
theorem C7_aggregator_read_error_propagates (pkg : Packages.Package)
    (e : KVError) (newVersion : String) (newAssets : Packages.Asset)
    (he : e ≠ KVError.KeyNotFoundError) :
    UpdateAggregatedMetadata pkg (Except.error e) newVersion newAssets
      = Except.error e := by
  cases e with
  | KeyNotFoundError => exact absurd rfl he
  | authError => rfl
  | otherError _ => rfl

/-- Witness for C7 at a concrete input. -/
theorem C7_aggregator_read_error_propagates_witness :
    KVError.authError ≠ KVError.KeyNotFoundError ∧
    UpdateAggregatedMetadata ⟨"p", none, []⟩ (Except.error KVError.authError)
        "1.0.0" ⟨"1.0.0", []⟩
      = Except.error KVError.authError :=
  ⟨by decide, C7_aggregator_read_error_propagates _ _ _ _ (by decide)⟩

/-- C9: whenever `UpdateAggregatedMetadata` succeeds — in each of its three
merge cases — the top-level version field of the resulting document is the
newly ingested version string. -/
theorem C9_version_tracks_latest (pkg : Packages.Package)
    (readResult : Except KVError Packages.Package) (newVersion : String)
    (newAssets : Packages.Asset) (doc : Packages.Package) (found : Bool)
    (h : UpdateAggregatedMetadata pkg readResult newVersion newAssets
          = Except.ok (doc, found)) :
    doc.Version = some newVersion := by
  cases readResult with
  | error e =>
    cases e with
    | KeyNotFoundError =>
      simp only [UpdateAggregatedMetadata, Except.ok.injEq, Prod.mk.injEq] at h
      rw [← h.1]
    | authError => exact absurd h (by simp [UpdateAggregatedMetadata])
    | otherError msg => exact absurd h (by simp [UpdateAggregatedMetadata])
  | ok aggPkg =>
    simp only [UpdateAggregatedMetadata, Except.ok.injEq, Prod.mk.injEq] at h
    rw [← h.1]

/-- Witness for C9 at a concrete input. -/
theorem C9_version_tracks_latest_witness :
    UpdateAggregatedMetadata ⟨"p", none, []⟩
        (Except.error KVError.KeyNotFoundError) "1.0.0" ⟨"1.0.0", []⟩
      = Except.ok (⟨"p", some "1.0.0", [⟨"1.0.0", []⟩]⟩, false) ∧
    (⟨"p", some "1.0.0", [⟨"1.0.0", []⟩]⟩ : Packages.Package).Version
      = some "1.0.0" :=
  ⟨rfl, C9_version_tracks_latest ⟨"p", none, []⟩
    (Except.error KVError.KeyNotFoundError) "1.0.0" ⟨"1.0.0", []⟩
    ⟨"p", some "1.0.0", [⟨"1.0.0", []⟩]⟩ false rfl⟩

/-- C4: merging an asset record for a version not yet present and then
immediately merging the same version again with a different record yields a
document with exactly one assets entry for that version, equal to the
second record; given the at-most-one-entry-per-version invariant on the
input, the result keeps it (no duplicate growth). -/
theorem C4_merge_remerge_single_entry (pkg doc : Packages.Package)
    (v : String) (a1 a2 : Packages.Asset)
    (h1 : a1.Version = v) (h2 : a2.Version = v)
    (hnot : doc.HasVersion v = false)
    (hnodup : (doc.Assets.map Packages.Asset.Version).Nodup) :
    ∃ d1 d2 : Packages.Package,
      UpdateAggregatedMetadata pkg (Except.ok doc) v a1
        = Except.ok (d1, true) ∧
      UpdateAggregatedMetadata pkg (Except.ok d1) v a2
        = Except.ok (d2, true) ∧
      (d2.Assets.filter fun a => a.Version == v) = [a2] ∧
      (d2.Assets.map Packages.Asset.Version).Nodup := by
  have hdocv : ∀ a ∈ doc.Assets, (a.Version == v) = false := by
    intro a ha
    simp only [Packages.Package.HasVersion, List.any_eq_false] at hnot
    simpa using hnot a ha
  refine ⟨{ doc with Assets := doc.Assets ++ [a1], Version := some v },
          { doc with Assets := doc.Assets ++ [a2], Version := some v },
          ?_, ?_, ?_, ?_⟩
  · simp [UpdateAggregatedMetadata, hnot]
  · simp only [UpdateAggregatedMetadata, Packages.Package.HasVersion,
      List.any_append, List.any_cons, List.any_nil, h1, beq_self_eq_true,
      Bool.true_or, Bool.or_true, Bool.not_true, Bool.false_eq_true,
      if_false, Packages.Package.UpdateVersion]
    simp only [Except.ok.injEq, Prod.mk.injEq, Packages.Package.mk.injEq]
    refine ⟨⟨trivial, trivial, ?_⟩, trivial⟩
    rw [List.map_append]
    congr 1
    · rw [show (doc.Assets.map fun a => if (a.Version == v) = true then a2 else a)
            = doc.Assets.map id from
          List.map_congr_left fun a ha => by rw [hdocv a ha]; rfl]
      exact List.map_id doc.Assets
    · simp [h1]
  · rw [List.filter_append, List.filter_eq_nil_iff.mpr, List.nil_append]
    · simp [h2]
    · intro a ha
      simp [hdocv a ha]
  · rw [List.map_append, List.nodup_append]
    refine ⟨hnodup, by simp, ?_⟩
    intro x hx hx2
    simp only [List.map_cons, List.map_nil, List.mem_singleton] at hx2
    subst hx2
    obtain ⟨a, ha, hav⟩ := List.mem_map.mp hx
    have := hdocv a ha
    rw [hav] at this
    rw [h2] at this
    simp at this

/-- Witness for C4 at a concrete input. -/
theorem C4_merge_remerge_single_entry_witness :
    ∃ d1 d2 : Packages.Package,
      UpdateAggregatedMetadata ⟨"p", none, []⟩
          (Except.ok ⟨"p", some "1.0.0", [⟨"1.0.0", ["a.js"]⟩]⟩)
          "2.0.0" ⟨"2.0.0", ["x.js"]⟩
        = Except.ok (d1, true) ∧
      UpdateAggregatedMetadata ⟨"p", none, []⟩ (Except.ok d1)
          "2.0.0" ⟨"2.0.0", ["y.js"]⟩
        = Except.ok (d2, true) ∧
      (d2.Assets.filter fun a => a.Version == "2.0.0")
        = [⟨"2.0.0", ["y.js"]⟩] ∧
      (d2.Assets.map Packages.Asset.Version).Nodup :=
  C4_merge_remerge_single_entry ⟨"p", none, []⟩
    ⟨"p", some "1.0.0", [⟨"1.0.0", ["a.js"]⟩]⟩ "2.0.0"
    ⟨"2.0.0", ["x.js"]⟩ ⟨"2.0.0", ["y.js"]⟩ rfl rfl (by decide) (by decide)

end Cdnjs
